import Mathlib

/-!
Shallow embedding of the retrowave-visualizer core
(src/retro-wave/src/RetroWaveVisualizer.tsx): the audio band extractor
(averageBand, per-cycle lerp smoothing), the deterministic ridge-shape
construction (pseudoRandom, createRidgeShape), the per-layer parameter
interpolation, and the per-frame offset computation.

JavaScript numbers are modelled as exact rationals.  The transcendental
library functions `Math.sin` and `Math.pow` are abstracted as explicit
function parameters (`sinf`, `powf`): every definition below is a pure
function of its parameters, mirroring the source, and the theorems either
hold for every choice of these functions or assume only the bound
`|sin| <= 1` where the source relies on it.
-/

namespace RetroWave

/-- The smoothed control-signal state (type `AudioBands` in the source). -/
structure AudioBands where
  bass : ℚ
  mid : ℚ
  treble : ℚ
deriving DecidableEq, Repr

/-- `EMPTY_BANDS` from the source: the all-zero baseline. -/
def EMPTY_BANDS : AudioBands := { bass := 0, mid := 0, treble := 0 }

/-- `THREE.MathUtils.lerp(x, y, t) = (1 - t) * x + t * y`. -/
def lerp (x y t : ℚ) : ℚ := (1 - t) * x + t * y

/-- `pseudoRandom(seed)` from the source:
`x = sin(seed * 12.9898) * 43758.5453123; return x - floor(x)`,
with `Math.sin` abstracted as the parameter `sinf`. -/
def pseudoRandom (sinf : ℚ → ℚ) (seed : ℚ) : ℚ :=
  let x := sinf (seed * 12.9898) * 43758.5453123
  x - ⌊x⌋

/-- The two sides of the valley. -/
inductive Side where
  | left
  | right
deriving DecidableEq, Repr

/-- `outerX = side === 'left' ? -14 : 14`. -/
def outerX : Side → ℚ
  | Side.left => -14
  | Side.right => 14

/-- `valleyX = side === 'left' ? -valleyHalf : valleyHalf`. -/
def valleyX (side : Side) (valleyHalf : ℚ) : ℚ :=
  match side with
  | Side.left => -valleyHalf
  | Side.right => valleyHalf

/-- `points = 10`: the number of ridge segments. -/
def ridgePoints : ℕ := 10

/-- One loop iteration of `createRidgeShape`: the point `(x, y)` appended
for sample index `i`, with `Math.pow` abstracted as `powf`. -/
def ridgeSample (sinf : ℚ → ℚ) (powf : ℚ → ℚ → ℚ) (side : Side)
    (seed baseY valleyHalf height : ℚ) (i : ℕ) : ℚ × ℚ :=
  let t : ℚ := (i : ℚ) / (ridgePoints : ℚ)
  let x := lerp (outerX side) (valleyX side valleyHalf) t
  let ridgeFalloff := powf (1 - t) 0.8
  let noise := 0.58 + pseudoRandom sinf (seed + (i : ℚ) * 17.1) * 0.9
  (x, baseY + height * noise * ridgeFalloff)

/-- `createRidgeShape(side, seed, baseY, valleyHalf, height)` as the full
sequence of outline points: `moveTo` / `lineTo` targets in order, with the
final point closing the path back to the start. -/
def createRidgeShape (sinf : ℚ → ℚ) (powf : ℚ → ℚ → ℚ) (side : Side)
    (seed baseY valleyHalf height : ℚ) : List (ℚ × ℚ) :=
  [(outerX side, -4.8), (outerX side, baseY + 0.2)]
    ++ (List.range (ridgePoints + 1)).map
        (ridgeSample sinf powf side seed baseY valleyHalf height)
    ++ [(valleyX side valleyHalf, -4.8), (outerX side, -4.8)]

/-- `averageBand(start, end)`: the loop runs `i` from `start` while
`i <= end && i < frequencyBuffer.length`, accumulating `sum` and `count`;
returns `count > 0 ? sum / (count * 255) : 0`.  The visited entries are
exactly the slice `(buf.drop start).take (endBin + 1 - start)`. -/
def averageBand (buf : List ℚ) (start endBin : ℕ) : ℚ :=
  let slice := (buf.drop start).take (endBin + 1 - start)
  if 0 < slice.length then slice.sum / ((slice.length : ℚ) * 255) else 0

/-- One run of `tick` over a fresh frequency snapshot `buf`: band averages
followed by the three independent lerp smoothing steps with factor `0.2`. -/
def tick (bands : AudioBands) (buf : List ℚ) : AudioBands :=
  let bass := averageBand buf 0 14
  let mid := averageBand buf 18 70
  let treble := averageBand buf 90 180
  { bass := lerp bands.bass bass 0.2
    mid := lerp bands.mid mid 0.2
    treble := lerp bands.treble treble 0.2 }

/-- `depth = index / 4` in the hard-coded five-layer configuration. -/
def depthOf (index : ℕ) : ℚ := (index : ℚ) / 4

/-- `valleyHalf = 3.4 - depth * 2.15`. -/
def valleyHalfOf (index : ℕ) : ℚ := 3.4 - depthOf index * 2.15

/-- `baseY = -1.26 + depth * 0.42`. -/
def baseYOf (index : ℕ) : ℚ := -1.26 + depthOf index * 0.42

/-- `ridgeHeight = 2.45 - depth * 0.92`. -/
def ridgeHeightOf (index : ℕ) : ℚ := 2.45 - depthOf index * 0.92

/-- `motion = 0.08 + index * 0.06`. -/
def motionOf (index : ℕ) : ℚ := 0.08 + (index : ℚ) * 0.06

/-- Left-layer seed `30 + index * 12.3`. -/
def seedLeft (index : ℕ) : ℚ := 30 + (index : ℚ) * 12.3

/-- Right-layer seed `70 + index * 13.7`. -/
def seedRight (index : ℕ) : ℚ := 70 + (index : ℚ) * 13.7

/-- `drift = Math.sin(t * (0.34 + layer.motion) + index * 0.62) * layer.motion`. -/
def driftOf (sinf : ℚ → ℚ) (t : ℚ) (index : ℕ) : ℚ :=
  sinf (t * (0.34 + motionOf index) + (index : ℚ) * 0.62) * motionOf index

/-- `lift = pulse * layer.motion * 0.65` where `pulse = bands.current.mid`. -/
def liftOf (mid : ℚ) (index : ℕ) : ℚ := mid * motionOf index * 0.65

/-- `y = drift + lift`, assigned to the left group position. -/
def leftOffset (sinf : ℚ → ℚ) (t mid : ℚ) (index : ℕ) : ℚ :=
  driftOf sinf t index + liftOf mid index

/-- `y * 0.9`, assigned to the right group position. -/
def rightOffset (sinf : ℚ → ℚ) (t mid : ℚ) (index : ℕ) : ℚ :=
  leftOffset sinf t mid index * 0.9

/-- Iterated smoothing of a single band toward a constant target `v` with
factor `0.2`, starting from `s0`: one application per extraction cycle. -/
def smoothIter (s0 v : ℚ) : ℕ → ℚ
  | 0 => s0
  | n + 1 => lerp (smoothIter s0 v n) v 0.2

/-- The analyser has `fftSize = 512`, so `frequencyBinCount = 256`. -/
def frequencyBinCount : ℕ := 256

/-- The end-to-end scenario snapshot: bins 0 to 14 at magnitude 255, all
other bins (including 18 to 70 and 90 to 180) at 0. -/
def scenarioSnapshot : List ℚ :=
  (List.range frequencyBinCount).map (fun i => if i ≤ 14 then 255 else 0)

/-- The band state after `n` extraction cycles over `scenarioSnapshot`,
starting from the all-zero baseline. -/
def scenarioBands : ℕ → AudioBands
  | 0 => EMPTY_BANDS
  | n + 1 => tick (scenarioBands n) scenarioSnapshot

/-- Modelled from the spec: the source hard-codes the layer count to 5 and
the depth denominator to 4, so the layer-count-parametrized depth fraction
`d = index / (N - 1)` with the boundary contract `d = 0` when `N = 1`
(spec sections 4.2 and 7) has no direct counterpart under src/. -/
def depthFraction (n index : ℕ) : ℚ :=
  if n ≤ 1 then 0 else (index : ℚ) / ((n : ℚ) - 1)

/-- Modelled from the spec: per-layer interpolated parameters
`(valleyHalf, baseY, ridgeHeight)` for a terrain of `n` layers, using the
source's interpolation endpoints and `depthFraction`. -/
def layerParamsN (n index : ℕ) : ℚ × ℚ × ℚ :=
  let d := depthFraction n index
  (3.4 - d * 2.15, -1.26 + d * 0.42, 2.45 - d * 0.92)

/-- Events of the capture lifecycle: a successful `start`, a `stop`
(effect cleanup cancels the animation frame and the re-run with
`enabled = false` resets the bands), and an animation-frame extraction
over a frequency snapshot. -/
inductive AudioEvent where
  | start
  | stop
  | frame (snapshot : List ℚ)
deriving DecidableEq

/-- The observable capture state: whether extraction is scheduled and the
current shared `AudioBands` value. -/
structure CaptureState where
  running : Bool
  bands : AudioBands
deriving DecidableEq

/-- One lifecycle transition.  `stop` cancels the scheduled frame and
resets the bands to `EMPTY_BANDS` (lines 61-63 and 127-132 of the source);
a `frame` runs `tick` only while extraction is scheduled, since the
cleanup cancels the pending animation frame and the `cancelled` flag
prevents a late `init` from starting the loop. -/
def stepCapture : CaptureState → AudioEvent → CaptureState
  | s, AudioEvent.start => { s with running := true }
  | _, AudioEvent.stop => { running := false, bands := EMPTY_BANDS }
  | s, AudioEvent.frame snap =>
      if s.running then { s with bands := tick s.bands snap } else s

/-- The state reached from `s` after a list of lifecycle events. -/
def runCapture (s : CaptureState) (evs : List AudioEvent) : CaptureState :=
  evs.foldl stepCapture s

/-- C1: for every side, seed, baseline, valley half-width and height, two
independent calls to the ridge-outline construction with identical
parameters produce identical outline point sequences; the construction is
a pure function of its explicit parameters (the noise depends only on the
seed), with no clock or mutable state in the embedding. -/
theorem ridge_construction_deterministic (sinf : ℚ → ℚ) (powf : ℚ → ℚ → ℚ)
    (side : Side) (seed baseY valleyHalf height : ℚ) (s1 s2 : List (ℚ × ℚ))
    (h1 : s1 = createRidgeShape sinf powf side seed baseY valleyHalf height)
    (h2 : s2 = createRidgeShape sinf powf side seed baseY valleyHalf height) :
    s1 = s2 :=
  h1.trans h2.symm

theorem ridge_construction_deterministic_witness :
    createRidgeShape (fun _ => 0) (fun _ _ => 1) Side.left 30 (-1.26) 3.4 2.45 =
      createRidgeShape (fun _ => 0) (fun _ _ => 1) Side.left 30 (-1.26) 3.4 2.45 :=
  ridge_construction_deterministic (fun _ => 0) (fun _ _ => 1) Side.left 30
    (-1.26) 3.4 2.45 _ _ rfl rfl

/-- C6: for every layer index, tick time `t` and mid-band value, the
left-side vertical offset equals `drift + lift` with
`drift = sin(t * (0.34 + motion) + index * 0.62) * motion` and
`lift = mid * motion * 0.65`, and the right-side vertical offset is the
left-side offset multiplied by the asymmetry constant `0.9`. -/
theorem offset_asymmetry (sinf : ℚ → ℚ) (t mid : ℚ) (index : ℕ) :
    leftOffset sinf t mid index =
      sinf (t * (0.34 + motionOf index) + (index : ℚ) * 0.62) * motionOf index
        + mid * motionOf index * 0.65 ∧
    rightOffset sinf t mid index = leftOffset sinf t mid index * 0.9 :=
  ⟨rfl, rfl⟩

/-- C4: in the five-layer configuration, as the depth index increases the
valley half-width strictly decreases, the ridge height strictly decreases
and the motion coefficient strictly increases. -/
theorem depth_monotonicity (i j : ℕ) (hij : i < j) (_hj : j ≤ 4) :
    valleyHalfOf j < valleyHalfOf i ∧ ridgeHeightOf j < ridgeHeightOf i ∧
      motionOf i < motionOf j := by
  have hq : (i : ℚ) < (j : ℚ) := by exact_mod_cast hij
  refine ⟨?_, ?_, ?_⟩ <;>
    simp only [valleyHalfOf, ridgeHeightOf, motionOf, depthOf] <;> linarith

theorem depth_monotonicity_witness :
    (1 < 3 ∧ 3 ≤ 4) ∧
      valleyHalfOf 3 < valleyHalfOf 1 ∧ ridgeHeightOf 3 < ridgeHeightOf 1 ∧
        motionOf 1 < motionOf 3 :=
  ⟨by norm_num, depth_monotonicity 1 3 (by norm_num) (by norm_num)⟩

/-- Closed form of the iterated smoothing step: the distance to a constant
target shrinks by the factor `1 - 0.2` each cycle. -/
theorem smoothIter_sub (s0 v : ℚ) : ∀ n : ℕ,
    smoothIter s0 v n - v = (s0 - v) * (1 - 0.2) ^ n := by
  intro n
  induction n with
  | zero => simp [smoothIter]
  | succ n ih =>
    simp only [smoothIter, lerp, pow_succ]
    rw [show (1 - 0.2 : ℚ) * smoothIter s0 v n + 0.2 * v - v
          = (1 - 0.2) * (smoothIter s0 v n - v) by ring, ih]
    ring

/-- C3: each extraction cycle applies `previous + (target - previous) * 0.2`
independently to the three bands, and for a constant target `v` the
smoothed value converges monotonically toward `v` with
`|smoothed_N - v| = |smoothed_0 - v| * (1 - 0.2)^N` exactly. -/
theorem smoothing_convergence (s0 v : ℚ) (N : ℕ) (bands : AudioBands)
    (buf : List ℚ) :
    (∀ p target f : ℚ, lerp p target f = p + (target - p) * f) ∧
    (tick bands buf).bass = lerp bands.bass (averageBand buf 0 14) 0.2 ∧
    (tick bands buf).mid = lerp bands.mid (averageBand buf 18 70) 0.2 ∧
    (tick bands buf).treble = lerp bands.treble (averageBand buf 90 180) 0.2 ∧
    |smoothIter s0 v N - v| = |s0 - v| * (1 - 0.2) ^ N ∧
    (∀ n : ℕ, |smoothIter s0 v (n + 1) - v| ≤ |smoothIter s0 v n - v|) := by
  have habs : ∀ n : ℕ, |smoothIter s0 v n - v| = |s0 - v| * (1 - 0.2) ^ n := by
    intro n
    rw [smoothIter_sub, abs_mul, abs_pow]
    have h8 : |(1 - 0.2 : ℚ)| = 1 - 0.2 :=
      abs_of_nonneg (by norm_num)
    rw [h8]
  refine ⟨fun p target f => by simp [lerp]; ring, rfl, rfl, rfl, habs N, ?_⟩
  intro n
  rw [habs n, habs (n + 1)]
  have h1 : ((1 : ℚ) - 0.2) ^ (n + 1) ≤ (1 - 0.2) ^ n := by
    apply pow_le_pow_of_le_one (by norm_num) (by norm_num)
    omega
  exact mul_le_mul_of_nonneg_left h1 (abs_nonneg _)

/-- C2: over a snapshot whose magnitudes lie in `[0, 255]`, `averageBand`
returns `0` when the effective range is empty (start past the last valid
bin, or start greater than the end bin) and otherwise the arithmetic mean
of the visited entries divided by `255`, so the result lies in `[0, 1]`. -/
theorem averageBand_spec (buf : List ℚ) (start endBin : ℕ)
    (hv : ∀ q ∈ buf, 0 ≤ q ∧ q ≤ 255) :
    (0 ≤ averageBand buf start endBin ∧ averageBand buf start endBin ≤ 1) ∧
    (buf.length ≤ start ∨ endBin < start → averageBand buf start endBin = 0) ∧
    (0 < ((buf.drop start).take (endBin + 1 - start)).length →
      averageBand buf start endBin =
        (((buf.drop start).take (endBin + 1 - start)).sum /
          (((buf.drop start).take (endBin + 1 - start)).length : ℚ)) / 255) := by
  have hmem : ∀ q ∈ (buf.drop start).take (endBin + 1 - start), 0 ≤ q ∧ q ≤ 255 :=
    fun q hq => hv q (List.mem_of_mem_drop (List.mem_of_mem_take hq))
  have hsum0 : 0 ≤ ((buf.drop start).take (endBin + 1 - start)).sum :=
    List.sum_nonneg fun q hq => (hmem q hq).1
  have hsum1 : ((buf.drop start).take (endBin + 1 - start)).sum
      ≤ (((buf.drop start).take (endBin + 1 - start)).length : ℚ) * 255 := by
    have h := List.sum_le_card_nsmul ((buf.drop start).take (endBin + 1 - start)) 255
      (fun q hq => (hmem q hq).2)
    simpa [nsmul_eq_mul] using h
  refine ⟨?_, ?_, ?_⟩
  · by_cases hlen : 0 < ((buf.drop start).take (endBin + 1 - start)).length
    · have hposn : (0:ℚ) < (((buf.drop start).take (endBin + 1 - start)).length : ℚ) := by
        exact_mod_cast hlen
      have hpos : (0:ℚ) < (((buf.drop start).take (endBin + 1 - start)).length : ℚ) * 255 := by
        positivity
      constructor
      · simp only [averageBand, if_pos hlen]
        exact div_nonneg hsum0 (le_of_lt hpos)
      · simp only [averageBand, if_pos hlen]
        rw [div_le_one hpos]
        exact hsum1
    · have hnil : (buf.drop start).take (endBin + 1 - start) = [] :=
        List.length_eq_zero.mp (by omega)
      rw [averageBand, hnil]
      norm_num
  · intro hempty
    have hnil : (buf.drop start).take (endBin + 1 - start) = [] := by
      rcases hempty with h | h
      · have hd : buf.drop start = [] := List.drop_eq_nil_of_le h
        simp [hd]
      · have hz : endBin + 1 - start = 0 := by omega
        simp [hz]
    rw [averageBand, hnil]
    norm_num
  · intro hlen
    simp only [averageBand, if_pos hlen]
    rw [div_div]

theorem averageBand_spec_witness :
    0 ≤ averageBand [(100 : ℚ), 200] 0 1 ∧ averageBand [(100 : ℚ), 200] 0 1 ≤ 1 :=
  (averageBand_spec [(100 : ℚ), 200] 0 1 (by intro q hq; fin_cases hq <;> norm_num)).1

/-- C8: the layer-count-parametrized constructor modelled from the spec
defines the depth fraction as `0` for a single-layer terrain instead of
dividing by zero, and the resulting layer carries the nearest parameter
set: the parameters of depth index `0` of the hard-coded configuration,
which are the maximum valley half-width, maximum ridge height and minimum
baseline among the five configured layers. -/
theorem degenerate_single_layer :
    (∀ index : ℕ, depthFraction 1 index = 0) ∧
    layerParamsN 1 0 = (valleyHalfOf 0, baseYOf 0, ridgeHeightOf 0) ∧
    (∀ i : Fin 5, valleyHalfOf i ≤ valleyHalfOf 0 ∧
      ridgeHeightOf i ≤ ridgeHeightOf 0 ∧ baseYOf 0 ≤ baseYOf i) := by
  refine ⟨fun index => by simp [depthFraction], ?_, ?_⟩
  · simp [layerParamsN, depthFraction, valleyHalfOf, baseYOf, ridgeHeightOf, depthOf]
  · intro i
    fin_cases i <;>
      refine ⟨?_, ?_, ?_⟩ <;>
        simp only [valleyHalfOf, ridgeHeightOf, baseYOf, depthOf] <;> norm_num

/-- The stopped state `{ running := false, bands := EMPTY_BANDS }` is
preserved by every event sequence that contains no successful start. -/
theorem runCapture_stopped (evs : List AudioEvent) (h : AudioEvent.start ∉ evs) :
    runCapture { running := false, bands := EMPTY_BANDS } evs =
      { running := false, bands := EMPTY_BANDS } := by
  induction evs with
  | nil => rfl
  | cons e evs ih =>
    have he : e ≠ AudioEvent.start := fun hc => h (hc ▸ List.mem_cons_self e evs)
    have hrest : AudioEvent.start ∉ evs := fun hm => h (List.mem_cons_of_mem e hm)
    have hstep : stepCapture { running := false, bands := EMPTY_BANDS } e =
        { running := false, bands := EMPTY_BANDS } := by
      cases e with
      | start => exact absurd rfl he
      | stop => rfl
      | frame snap => simp [stepCapture]
    show runCapture (stepCapture { running := false, bands := EMPTY_BANDS } e) evs = _
    rw [hstep]
    exact ih hrest

/-- C9: once capture is stopped, the shared band state is the all-zero
baseline and stays so across any further events that do not include a
successful start: the teardown performs no further writes and frames are
no longer scheduled. -/
theorem idle_bands_zero (s : CaptureState) (evs : List AudioEvent)
    (h : AudioEvent.start ∉ evs) :
    (runCapture (stepCapture s AudioEvent.stop) evs).bands = EMPTY_BANDS ∧
    (runCapture (stepCapture s AudioEvent.stop) evs).running = false := by
  have hstop : stepCapture s AudioEvent.stop =
      { running := false, bands := EMPTY_BANDS } := rfl
  rw [hstop, runCapture_stopped evs h]
  exact ⟨rfl, rfl⟩

theorem idle_bands_zero_witness :
    AudioEvent.start ∉ [AudioEvent.frame scenarioSnapshot, AudioEvent.stop] ∧
    (runCapture (stepCapture { running := true, bands := { bass := 1/2, mid := 1/4, treble := 0 } }
        AudioEvent.stop) [AudioEvent.frame scenarioSnapshot, AudioEvent.stop]).bands
      = EMPTY_BANDS :=
  have hnotin : AudioEvent.start ∉ [AudioEvent.frame scenarioSnapshot, AudioEvent.stop] := by
    simp
  ⟨hnotin,
    (idle_bands_zero { running := true, bands := { bass := 1/2, mid := 1/4, treble := 0 } }
      [AudioEvent.frame scenarioSnapshot, AudioEvent.stop] hnotin).1⟩

/-- C10: assuming the mid band lies in `[0, 1]` and the abstracted sine is
bounded by one in absolute value, the per-frame vertical offsets are
bounded by a fixed multiple of the layer's motion coefficient: the left
offset by `motion * 1.65` and the right offset by `motion * 1.65 * 0.9`. -/
theorem offset_bounded (sinf : ℚ → ℚ) (hs : ∀ x, |sinf x| ≤ 1) (t mid : ℚ)
    (hm0 : 0 ≤ mid) (hm1 : mid ≤ 1) (index : ℕ) :
    |leftOffset sinf t mid index| ≤ motionOf index * 1.65 ∧
    |rightOffset sinf t mid index| ≤ motionOf index * 1.65 * 0.9 := by
  have hmot : 0 ≤ motionOf index := by
    simp only [motionOf]
    positivity
  have hdrift : |driftOf sinf t index| ≤ motionOf index := by
    rw [driftOf, abs_mul, abs_of_nonneg hmot]
    calc |sinf (t * (0.34 + motionOf index) + (index : ℚ) * 0.62)| * motionOf index
        ≤ 1 * motionOf index := mul_le_mul_of_nonneg_right (hs _) hmot
      _ = motionOf index := one_mul _
  have hlift : |liftOf mid index| ≤ motionOf index * 0.65 := by
    rw [liftOf, abs_of_nonneg (by positivity)]
    nlinarith
  have hleft : |leftOffset sinf t mid index| ≤ motionOf index * 1.65 := by
    calc |leftOffset sinf t mid index|
        ≤ |driftOf sinf t index| + |liftOf mid index| := abs_add _ _
      _ ≤ motionOf index + motionOf index * 0.65 := add_le_add hdrift hlift
      _ = motionOf index * 1.65 := by ring
  refine ⟨hleft, ?_⟩
  rw [rightOffset, abs_mul]
  have h9 : |(0.9 : ℚ)| = 0.9 := abs_of_nonneg (by norm_num)
  rw [h9]
  nlinarith [abs_nonneg (leftOffset sinf t mid index)]

theorem offset_bounded_witness :
    (0 ≤ (1 : ℚ) ∧ (1 : ℚ) ≤ 1) ∧
    |leftOffset (fun _ => 1) 0 1 0| ≤ motionOf 0 * 1.65 ∧
    |rightOffset (fun _ => 1) 0 1 0| ≤ motionOf 0 * 1.65 * 0.9 :=
  ⟨⟨by norm_num, le_refl 1⟩,
    offset_bounded (fun _ => 1) (fun x => by norm_num) 0 1 (by norm_num) (le_refl 1) 0⟩

/-- C5: for every ridge sample index `i` of `0..10` with `t = i/10`, the
outline point at position `2 + i` of the constructed path has horizontal
position linearly interpolated from the outer edge toward the
side-dependent valley edge, and vertical position
`baseY + height * (0.58 + noise * 0.9) * pow (1 - t) 0.8`, where the
noise value `pseudoRandom sinf (seed + i * 17.1)` is deterministic and
lies in `[0, 1)`. -/
theorem ridge_sample_spec (sinf : ℚ → ℚ) (powf : ℚ → ℚ → ℚ) (side : Side)
    (seed baseY valleyHalf height : ℚ) (i : ℕ) (hi : i ≤ 10) :
    (createRidgeShape sinf powf side seed baseY valleyHalf height)[2 + i]? =
      some (lerp (outerX side) (valleyX side valleyHalf) ((i : ℚ) / 10),
        baseY + height * (0.58 + pseudoRandom sinf (seed + (i : ℚ) * 17.1) * 0.9)
          * powf (1 - (i : ℚ) / 10) 0.8) ∧
    0 ≤ pseudoRandom sinf (seed + (i : ℚ) * 17.1) ∧
    pseudoRandom sinf (seed + (i : ℚ) * 17.1) < 1 := by
  have hi11 : i < 11 := by omega
  refine ⟨?_, ?_, ?_⟩
  · simp only [createRidgeShape, ridgePoints, List.append_assoc]
    rw [List.getElem?_append_right (by simp)]
    simp only [List.length_cons, List.length_nil]
    rw [show 2 + i - 2 = i by omega]
    rw [List.getElem?_append_left (by simpa using hi11)]
    rw [List.getElem?_map, List.getElem?_range hi11]
    simp only [Option.map_some']
    simp only [ridgeSample, lerp, ridgePoints, Nat.cast_ofNat]
  · exact Int.fract_nonneg (sinf ((seed + (i : ℚ) * 17.1) * 12.9898) * 43758.5453123)
  · exact Int.fract_lt_one (sinf ((seed + (i : ℚ) * 17.1) * 12.9898) * 43758.5453123)

theorem ridge_sample_spec_witness :
    (3 ≤ 10) ∧
    ((createRidgeShape (fun _ => 0) (fun a _ => a) Side.right 70 (-1.26) 3.4 2.45)[2 + 3]? =
      some (lerp (outerX Side.right) (valleyX Side.right 3.4) (((3 : ℕ) : ℚ) / 10),
        -1.26 + 2.45 * (0.58 + pseudoRandom (fun _ => 0) (70 + ((3 : ℕ) : ℚ) * 17.1) * 0.9)
          * (fun a _ => a) (1 - ((3 : ℕ) : ℚ) / 10) 0.8)) ∧
    0 ≤ pseudoRandom (fun _ => 0) (70 + ((3 : ℕ) : ℚ) * 17.1) :=
  ⟨by norm_num,
    (ridge_sample_spec (fun _ => 0) (fun a _ => a) Side.right 70 (-1.26) 3.4 2.45 3
      (by norm_num)).1,
    (ridge_sample_spec (fun _ => 0) (fun a _ => a) Side.right 70 (-1.26) 3.4 2.45 3
      (by norm_num)).2.1⟩

set_option maxRecDepth 40000 in
/-- The three band averages over the end-to-end scenario snapshot: the
bass window is saturated, the mid and treble windows are silent. -/
theorem scenario_band_values :
    averageBand scenarioSnapshot 0 14 = 1 ∧
    averageBand scenarioSnapshot 18 70 = 0 ∧
    averageBand scenarioSnapshot 90 180 = 0 := by
  have h1 : (scenarioSnapshot.drop 0).take (14 + 1 - 0) = List.replicate 15 (255:ℚ) := by
    decide
  have h2 : (scenarioSnapshot.drop 18).take (70 + 1 - 18) = List.replicate 53 (0:ℚ) := by
    decide
  have h3 : (scenarioSnapshot.drop 90).take (180 + 1 - 90) = List.replicate 91 (0:ℚ) := by
    decide
  refine ⟨?_, ?_, ?_⟩
  · rw [averageBand, h1]
    simp [List.sum_replicate]
    norm_num
  · rw [averageBand, h2]
    simp [List.sum_replicate]
  · rw [averageBand, h3]
    simp [List.sum_replicate]

/-- Closed form of the scenario run: after `n` cycles the bass band is
`1 - (1 - 0.2)^n` and the mid and treble bands stay at zero. -/
theorem scenarioBands_closed : ∀ n : ℕ,
    scenarioBands n = { bass := 1 - (1 - 0.2) ^ n, mid := 0, treble := 0 } := by
  obtain ⟨hb, hm, ht⟩ := scenario_band_values
  intro n
  induction n with
  | zero =>
    show EMPTY_BANDS = _
    rw [EMPTY_BANDS]
    norm_num [AudioBands.mk.injEq]
  | succ n ih =>
    show tick (scenarioBands n) scenarioSnapshot = _
    rw [ih, tick]
    simp only [hb, hm, ht, lerp]
    norm_num [AudioBands.mk.injEq]
    ring

/-- C7: starting from the all-zero bands, the scenario snapshot (bins 0
to 14 at 255, bins 18 to 70 and 90 to 180 at 0) yields after one
extraction cycle exactly `bass = 0.2` with `mid = 0` and `treble = 0`,
and after ten identical cycles `bass = 1 - 0.8^10 = 8717049/9765625`. -/
theorem end_to_end_scenario :
    scenarioBands 1 = { bass := 0.2, mid := 0, treble := 0 } ∧
    scenarioBands 10 = { bass := 1 - 0.8 ^ 10, mid := 0, treble := 0 } ∧
    1 - (0.8 : ℚ) ^ 10 = 8717049 / 9765625 := by
  rw [scenarioBands_closed 1, scenarioBands_closed 10]
  norm_num [AudioBands.mk.injEq]

end RetroWave
